import Mathlib

/-!
# Verification of the AraUltra scan-orchestration core

A shallow embedding of the scan-orchestration subsystem of the AraUltra
repository, together with theorems settling the frozen claims about it.

Python strings are modelled as `List Char` (`Chars`) where character-level
reasoning is needed (the URL parsing of `core/tools.py` and
`core/scanner_engine.py`), and as Lean `String` elsewhere.  Python dicts
holding findings, issues, tool definitions and killchain edges are modelled
as structures with `Option` fields (a missing dict key is `none`), plus
association lists for the open `metadata` mapping.  Python's truthiness
(`a or b` skips `None` and `""`) is modelled explicitly by `pyOr`.
Exceptions are modelled with `Except`; external collaborators that are not
part of the embedded core (the OS `PATH` lookup, DNS resolution, the
subprocess layer, the finding classifier, the phase runner and the
correlation rules) are parameters of the embedded functions.
-/

namespace AraUltra

abbrev Chars := List Char

/-- Python `a or b` for strings: `None` and the empty string are falsy. -/
def pyOr (a : Option String) (b : String) : String :=
  match a with
  | none => b
  | some s => if s = "" then b else s

/-- Python `s.upper()` (character-wise ASCII case mapping, evaluated on
the character list so that proofs can compute with it). -/
def pyUpper (s : String) : String := (s.toList.map Char.toUpper).asString

/-- `startswith s p`: does `s` start with `p`?  (Python `s.startswith(p)`.) -/
def startswith : Chars → Chars → Bool
  | _, [] => true
  | [], _ :: _ => false
  | c :: cs, d :: ds => c == d && startswith cs ds

/-- Substring test, Python `p in s`. -/
def containsSub : Chars → Chars → Bool
  | [], p => p.isEmpty
  | s@(_ :: rest), p => startswith s p || containsSub rest p

/-- Python `s.rstrip(".")`: drop every trailing `'.'`. -/
def rstripDots (s : Chars) : Chars :=
  (s.reverse.dropWhile (· == '.')).reverse

/-- Python `s.strip()`: drop leading and trailing whitespace. -/
def stripWs (s : Chars) : Chars :=
  ((s.dropWhile Char.isWhitespace).reverse.dropWhile Char.isWhitespace).reverse

/-- Python `s.lower()` on the character-list model. -/
def lowerChars (s : Chars) : Chars := s.map Char.toLower

/-- Python `s.partition(c)` restricted to the two components the code uses:
the part before the first occurrence of `c` and the part after it
(`(s, [])` when `c` does not occur, as in Python). -/
def partitionChar (s : Chars) (c : Char) : Chars × Chars :=
  (s.takeWhile (· ≠ c), (s.dropWhile (· ≠ c)).drop 1)

/-- The last component of Python `s.rpartition(c)`: the part after the last
occurrence of `c`, or all of `s` when `c` does not occur. -/
def afterLastChar (s : Chars) (c : Char) : Chars :=
  if s.contains c then (s.reverse.takeWhile (· ≠ c)).reverse else s

/-! ## The urlparse model

`core/tools.py` and `core/scanner_engine.py` rely on
`urllib.parse.urlparse`/`urlunparse` and the `hostname` accessor.  The
functions below embed the CPython `urlsplit`/`urlunsplit` algorithm for the
component accesses the repository performs (scheme, netloc, path, query,
fragment and the lower-cased `hostname`).  Path parameters (`;`) are left
inside `path`, which round-trips identically through `urlunparse`. -/

/-- Characters CPython allows in a URL scheme. -/
def schemeChar (c : Char) : Bool :=
  c.isAlpha || c.isDigit || c == '+' || c == '-' || c == '.'

/-- CPython `urlsplit` scheme detection: a valid scheme before the first
`':'` is split off and lower-cased, otherwise the url is left whole. -/
def splitScheme (url : Chars) : Chars × Chars :=
  let before := url.takeWhile (· ≠ ':')
  match url.contains ':', before with
  | true, c :: cs =>
    if c.isAlpha && (c :: cs).all schemeChar then
      (lowerChars (c :: cs), url.drop (before.length + 1))
    else ([], url)
  | _, _ => ([], url)

/-- CPython `_splitnetloc`: after a leading `"//"`, the netloc extends to
the first `'/'`, `'?'` or `'#'`. -/
def splitNetloc (url : Chars) : Chars × Chars :=
  if startswith url ['/', '/'] then
    let rest := url.drop 2
    let netloc := rest.takeWhile (fun c => !(c == '/' || c == '?' || c == '#'))
    (netloc, rest.drop netloc.length)
  else ([], url)

/-- Split at the first occurrence of `c` (Python `s.split(c, 1)`); the
second component is empty when `c` does not occur. -/
def splitOnceChar (s : Chars) (c : Char) : Chars × Chars :=
  if s.contains c then partitionChar s c else (s, [])

structure UrlParts where
  scheme : Chars := []
  netloc : Chars := []
  path : Chars := []
  query : Chars := []
  fragment : Chars := []
deriving DecidableEq

/-- The CPython `urlsplit` pipeline: lstrip C0-control/space characters,
remove tab/CR/LF everywhere, then scheme, netloc, fragment and query in
that order.  CPython's `ValueError` paths (mismatched IPv6 brackets,
invalid bracketed hosts, the non-ASCII netloc round-trip check) are
validity checks that do not alter the returned components; the model is
total, covering every input on which CPython's `urlparse` returns. -/
def urlsplit (url : Chars) : UrlParts :=
  let url := url.dropWhile (fun c => c.toNat ≤ 32)
  let url := url.filter (fun c => !(c == '\t' || c == '\r' || c == '\n'))
  let sch := splitScheme url
  let net := splitNetloc sch.2
  let frg := splitOnceChar net.2 '#'
  let pq := splitOnceChar frg.1 '?'
  { scheme := sch.1, netloc := net.1, path := pq.1, query := pq.2, fragment := frg.2 }

/-- CPython's `uses_netloc` scheme list (the `''` entry is unreachable in
`urlunsplit`, whose condition requires a truthy scheme). -/
def usesNetloc : List Chars :=
  (["", "ftp", "http", "gopher", "nntp", "telnet", "imap", "wais", "file", "mms",
    "https", "shttp", "snews", "prospero", "rtsp", "rtsps", "rtspu", "rsync", "svn",
    "svn+ssh", "sftp", "nfs", "git", "git+ssh", "ws", "wss"]).map String.toList

/-- CPython `urlunsplit` (`urlunparse` with the path parameters kept inside
`path`, exactly as `urlsplit` above left them). -/
def urlunsplit (p : UrlParts) : Chars :=
  let url := p.path
  let url :=
    if p.netloc ≠ [] ∨ (p.scheme ≠ [] ∧ p.scheme ∈ usesNetloc ∧ ¬ startswith url ['/', '/']) then
      let url' := if url ≠ [] ∧ ¬ startswith url ['/'] then '/' :: url else url
      ['/', '/'] ++ p.netloc ++ url'
    else url
  let url := if p.scheme ≠ [] then p.scheme ++ [':'] ++ url else url
  let url := if p.query ≠ [] then url ++ ['?'] ++ p.query else url
  if p.fragment ≠ [] then url ++ ['#'] ++ p.fragment else url

/-- The CPython `ParseResult.hostname` accessor: userinfo is stripped at the
last `'@'`, an IPv6 bracket pair is honoured, the port is stripped at the
first `':'`, the host is lower-cased up to any `'%'` (an IPv6 zone id is
preserved as-is), and an empty host is `None`. -/
def hostnameOf (p : UrlParts) : Option Chars :=
  let hostinfo := afterLastChar p.netloc '@'
  let h :=
    if hostinfo.contains '[' then
      (partitionChar (partitionChar hostinfo '[').2 ']').1
    else (partitionChar hostinfo ':').1
  if h = [] then none
  else
    let pre := (partitionChar h '%').1
    some (lowerChars pre ++ h.drop pre.length)

/-! ## `core/tools.py`: target normalization -/

/-- `tools._ensure_url`: strip whitespace, default an `https://` scheme,
and re-interpret a scheme-only parse whose path holds the authority. -/
def ensure_url (target : Chars) : Chars :=
  let t := stripWs target
  if t = [] then t
  else
    let t2 := if containsSub t "://".toList then t
              else "https://".toList ++ t
    let parsed := urlsplit t2
    let parsed :=
      if parsed.netloc = [] ∧ parsed.path ≠ [] then
        urlsplit ((if parsed.scheme = [] then "https".toList else parsed.scheme)
          ++ "://".toList ++ parsed.path)
      else parsed
    urlunsplit parsed

/-- `tools._extract_host`: the hostname of the url-ensured target (falling
back to the raw target when no hostname parses), lower-cased with trailing
dots removed. -/
def extract_host (target : Chars) : Chars :=
  let parsed := urlsplit (ensure_url target)
  let host := (hostnameOf parsed).getD target
  rstripDots (lowerChars host)

/-- `tools._normalize_target`.  DNS resolution (`socket.gethostbyname`,
used only for the `ip` mode) is an external effect, passed in as `resolve`;
`none` models a `socket.gaierror`, on which the code falls back to the
unresolved host. -/
def normalize_target (resolve : Chars → Option Chars) (raw : Chars) (mode : Chars) : Chars :=
  if mode = "host".toList then extract_host raw
  else if mode = "domain".toList then extract_host raw
  else if mode = "ip".toList then (resolve (extract_host raw)).getD (extract_host raw)
  else ensure_url raw

/-- `ScannerEngine._normalize_asset`: hostname of the raw target (no
url-ensuring, no lower-casing of the fallback), with one leading `"www."`
stripped. -/
def normalize_asset (target : Chars) : Chars :=
  let host := (hostnameOf (urlsplit target)).getD target
  if startswith host "www.".toList then host.drop 4 else host

/-- String-level wrapper of `normalize_asset` for the finding model. -/
def normalize_assetS (target : String) : String :=
  (normalize_asset target.toList).asString

/-! ## `core/scanner_engine.py`: findings, normalization and dedup

A raw finding is a Python dict.  The fields the engine reads or writes are
modelled explicitly (`none` = key absent); `metadata` is an association
list with dict semantics (`setdefault` appends only a missing key). -/

structure RawFinding where
  tool : Option String := none
  type : Option String := none
  severity : Option String := none
  target : Option String := none
  asset : Option String := none
  message : Option String := none
  proof : Option String := none
  fingerprint : Option String := none
  tags : List String := []
  families : List String := []
  metadata : List (String × String) := []
deriving DecidableEq

/-- Python `d.setdefault(k, v)` on the association-list dict model. -/
def metaSetdefault (m : List (String × String)) (k v : String) : List (String × String) :=
  if (m.lookup k).isSome then m else m ++ [(k, v)]

/-- The per-item body of `ScannerEngine._normalize_findings` (everything
before the dedup-cache check): defaults, severity upper-casing, asset
normalization, `metadata.original_target`, and the fingerprint
(`setdefault`: a fingerprint already present on the raw item is kept,
otherwise `tool:asset:type:severity` with defaults `scanner`/`generic`). -/
def normalize_entry (item : RawFinding) : RawFinding :=
  let message := item.message.getD (item.proof.getD "")
  let severity := pyUpper (item.severity.getD "INFO")
  let original_target := pyOr item.target (pyOr item.asset "unknown")
  let asset := normalize_assetS original_target
  let metadata := metaSetdefault item.metadata "original_target" original_target
  let fingerprint := item.fingerprint.getD
    (item.tool.getD "scanner" ++ ":" ++ asset ++ ":" ++ item.type.getD "generic" ++ ":" ++ severity)
  { item with
      message := some message
      severity := some severity
      target := some asset
      asset := some asset
      metadata := metadata
      fingerprint := some fingerprint }

/-- The fingerprint a raw item ends up with after `normalize_entry`. -/
def fingerprintOf (item : RawFinding) : String :=
  ((normalize_entry item).fingerprint).getD ""

/-- `ScannerEngine._normalize_findings`: the scan-run dedup cache
(`self._fingerprint_cache`, a Python set of strings) is threaded
explicitly; an item whose fingerprint is already cached is dropped,
otherwise it is admitted and its fingerprint recorded. -/
def normalize_findings (items : List RawFinding) (cache : List String) :
    List RawFinding × List String :=
  match items with
  | [] => ([], cache)
  | item :: rest =>
    let entry := normalize_entry item
    let fp := entry.fingerprint.getD ""
    if fp ∈ cache then normalize_findings rest cache
    else
      let (out, cache') := normalize_findings rest (fp :: cache)
      (entry :: out, cache')

/-! ## Killchain edges, recon-edge accumulation and enrichment -/

/-- A killchain edge dict, with the keys `_build_recon_edges` writes and
`_edge_signature` reads. -/
structure KEdge where
  source : Option String := none
  target : Option String := none
  label : Option String := none
  severity : Option String := none
  edge_type : Option String := none
  tags : List String := []
  signal : Option String := none
  families : List String := []
deriving DecidableEq

/-- An issue dict as consumed by the risk engine (produced by the external
`apply_rules` collaborator). -/
structure Issue where
  target : Option String := none
  asset : Option String := none
  severity : Option String := none
  tags : List String := []
deriving DecidableEq

abbrev EdgeSig := Option String × Option String × Option String × Option String × Option String

/-- `ScannerEngine._edge_signature`. -/
def edge_signature (e : KEdge) : EdgeSig :=
  (e.source, e.target, e.label, e.edge_type, e.severity)

/-- The run-scoped mutable state of a `ScannerEngine` plus the two
module-level stores it writes (`issues_store`, `killchain_store`).  The
stores' `replace_all` is a wholesale assignment, so they are plain list
fields here. -/
structure EngineState where
  lastResults : List RawFinding := []
  fingerprintCache : List String := []
  reconEdges : List KEdge := []
  reconEdgeKeys : List EdgeSig := []
  issues : List Issue := []
  killchain : List KEdge := []
deriving DecidableEq

/-- `ScannerEngine._build_recon_edges`: one behavioural edge per
`recon-phase*` family of each finding, with the `variant` metadata
defaulting to `behavior` under Python truthiness. -/
def build_recon_edges (findings : List RawFinding) : List KEdge :=
  (findings.map (fun item =>
    let recon_families := item.families.filter (fun fam => fam.startsWith "recon-phase")
    if recon_families.isEmpty then []
    else
      let variant := pyOr (item.metadata.lookup "variant") "behavior"
      recon_families.map (fun fam =>
        { source := some (item.asset.getD "unknown")
          target := some (fam ++ ":" ++ variant)
          label := item.type
          severity := item.severity
          tags := item.tags
          signal := item.message
          families := item.families
          edge_type := some "behavioral-signal" : KEdge }))).flatten

/-- One iteration of the loop body of `ScannerEngine._record_recon_edges`. -/
def record_recon_edge (st : EngineState) (edge : KEdge) : EngineState :=
  if edge_signature edge ∈ st.reconEdgeKeys then st
  else { st with
          reconEdgeKeys := edge_signature edge :: st.reconEdgeKeys
          reconEdges := st.reconEdges ++ [edge] }

/-- `ScannerEngine._record_recon_edges`. -/
def record_recon_edges (st : EngineState) (edges : List KEdge) : EngineState :=
  edges.foldl record_recon_edge st

/-- The type of the external `apply_rules` collaborator
(`core/vuln_rules.py`, outside the embedded core): from the accumulated
findings to correlated issues and enrichment killchain edges (the middle
component of its Python triple is discarded by the engine). -/
abbrev ApplyRules := List RawFinding → List Issue × List KEdge

/-- The enrichment edges `_refresh_enrichment` obtains for a state:
`apply_rules` runs only when `_last_results` is non-empty. -/
def enrichment_edges (apply_rules : ApplyRules) (st : EngineState) : List KEdge :=
  if st.lastResults.isEmpty then [] else (apply_rules st.lastResults).2

/-- The issues `_refresh_enrichment` obtains for a state. -/
def enrichment_issues (apply_rules : ApplyRules) (st : EngineState) : List Issue :=
  if st.lastResults.isEmpty then [] else (apply_rules st.lastResults).1

/-- `ScannerEngine._refresh_enrichment`: replace the issues store, replace
the killchain store with enrichment edges followed by the accumulated
recon edges, and return the two counts. -/
def refresh_enrichment (apply_rules : ApplyRules) (st : EngineState) :
    (Nat × Nat) × EngineState :=
  let enriched := enrichment_issues apply_rules st
  let combined := enrichment_edges apply_rules st ++ st.reconEdges
  ((enriched.length, combined.length),
   { st with issues := enriched, killchain := combined })

/-! ## The bounded-concurrency scheduler of `ScannerEngine.scan`

The tool phase (lines 81-109 of `core/scanner_engine.py`) keeps a FIFO
`pending` list and a `running` task map bounded by
`MAX_CONCURRENT_TOOLS`.  The small-step system below embeds exactly the
points at which the running map changes: the initial batch-launch loop,
and the per-completion handler that deletes a finished task and, while
pending tools remain, immediately launches the next one. -/

def MAX_CONCURRENT_TOOLS : Nat := 2

structure SchedState where
  pending : List String
  running : List String
  completed : List String
deriving DecidableEq

/-- The batch-launch loop
(`while pending and len(running) < self.MAX_CONCURRENT_TOOLS`): moves
tools from the head of `pending` into `running`. -/
def batchLaunch (pending running : List String) : List String × List String :=
  match pending with
  | [] => ([], running)
  | tool :: rest =>
    if running.length < MAX_CONCURRENT_TOOLS then batchLaunch rest (running ++ [tool])
    else (pending, running)

/-- The scheduler state right after the batch-launch loop. -/
def initSched (tools_to_run : List String) : SchedState :=
  let pr := batchLaunch tools_to_run []
  { pending := pr.1, running := pr.2, completed := [] }

/-- The completion handler for one finished task `t`
(`del running[tool_name]` followed by `if pending: ... pop(0) ... launch`):
the freed slot is refilled from the head of the FIFO pending queue. -/
def completeTool (s : SchedState) (t : String) : SchedState :=
  let running' := s.running.erase t
  match s.pending with
  | [] => { pending := [], running := running', completed := s.completed ++ [t] }
  | next :: rest =>
    { pending := rest, running := running' ++ [next], completed := s.completed ++ [t] }

/-- One observable scheduler transition: some running task finishes and is
handled.  (`asyncio.wait` may report several tasks at once, but the loop
handles them one at a time, so every intermediate state is of this form.) -/
inductive SchedStep : SchedState → SchedState → Prop where
  | complete (s : SchedState) (t : String) (h : t ∈ s.running) : SchedStep s (completeTool s t)

/-- All states the scheduler loop can pass through for a given tool list. -/
def SchedReachable (tools_to_run : List String) (s : SchedState) : Prop :=
  Relation.ReflTransGen SchedStep (initSched tools_to_run) s

/-! ## `ScannerEngine._run_tool_task`

The subprocess layer is external: its outcome is a `SpawnOutcome`
parameter (`fileNotFound` models a `FileNotFoundError` from
`create_subprocess_exec`, `startError` any other start exception, `ok` a
spawned process with its emitted non-empty output lines and exit code).
The classifier (`core/raw_classifier.py`, external) may itself raise,
modelled by `Except`.  The task never propagates an exception: its result
type is a plain value. -/

inductive SpawnOutcome where
  | ok (lines : List String) (exitCode : Int)
  | fileNotFound
  | startError (msg : String)
deriving DecidableEq

structure ToolTaskResult where
  /-- Lines put on the shared log queue, in order. -/
  logLines : List String
  /-- `evidence_store.save_text` calls: (key, target, text). -/
  evidence : List (String × String × String)
  /-- The finding list returned to the coordinator. -/
  findings : List RawFinding
deriving DecidableEq

def run_tool_task (tool target : String) (spawn : SpawnOutcome)
    (classify : String → Except String (List RawFinding)) : ToolTaskResult :=
  let header := "--- Running " ++ tool ++ " ---"
  match spawn with
  | .fileNotFound =>
    let msg := "[" ++ tool ++ "] NOT INSTALLED or not in PATH."
    { logLines := [header, msg]
      evidence := [(tool ++ "_error", target, msg)]
      findings := [] }
  | .startError exc =>
    let msg := "[" ++ tool ++ "] failed to start: " ++ exc
    { logLines := [header, msg]
      evidence := [(tool ++ "_error", target, msg)]
      findings := [] }
  | .ok lines exitCode =>
    let streamed := lines.map (fun text => "[" ++ tool ++ "] " ++ text)
    let exitLine := "[" ++ tool ++ "] Exit code: " ++ toString exitCode
    let output_text := String.intercalate "\n" lines
    match classify output_text with
    | .ok findings =>
      { logLines := [header] ++ streamed ++ [exitLine]
        evidence := [(tool, target, output_text)]
        findings := findings }
    | .error exc =>
      let err := "[" ++ tool ++ "] classifier error: " ++ exc
      { logLines := [header] ++ streamed ++ [exitLine, err]
        evidence := [(tool, target, output_text), (tool ++ "_classifier_error", target, err)]
        findings := [] }

/-! ## `ScannerEngine.scan`

The async generator is embedded as a total function from the environment
(installed tools, each tool task's queued lines and outcome, the phase
runner's logs and results, and the `apply_rules` collaborator) to the
emitted log stream and the final engine state.  The stream is given in one
fixed linearization of the queue interleaving (per-tool lines grouped in
launch order); the theorems below only concern properties that every
linearization shares (termination, the terminal lines, the recorded
findings and store contents). -/

/-- The keys of the `TOOLS` registry dict of `core/tools.py` (the second,
shadowing definition), in insertion order. -/
def TOOL_NAMES : List String :=
  ["nmap", "wafw00f", "dirsearch", "testssl", "whatweb", "nuclei", "nikto", "gobuster",
   "feroxbuster", "jaeles", "subfinder", "assetfinder", "hakrawler", "httpx", "naabu",
   "dnsx", "masscan", "amass", "subjack", "sslyze", "wfuzz", "httprobe", "pshtt",
   "eyewitness", "hakrevdns"]

/-- The environment of one `scan` invocation: everything outside the
engine's own state that the run consumes. -/
structure ScanEnv where
  /-- Keys of `get_installed_tools()`, in detection order. -/
  installed : List String
  /-- The lines each tool's `_run_tool_task` puts on the shared queue. -/
  toolLogs : String → List String
  /-- Each tool task's outcome as observed by `finished.result()`:
  `.error` models a task that raised. -/
  toolResult : String → Except String (List RawFinding)
  /-- Lines the `PhaseRunner` collaborator emits. -/
  phaseLogs : List String
  /-- `run_all_phases()` results, in dict iteration order. -/
  phaseResults : List (String × List RawFinding)
  apply_rules : ApplyRules

/-- Lines 60-63 of `scan`: the run-scoped engine state is cleared at the
start of every invocation (`_last_results`, `_fingerprint_cache`,
`_recon_edges`, `_recon_edge_keys`); the module-level stores are not. -/
def resetRunState (st : EngineState) : EngineState :=
  { st with lastResults := [], fingerprintCache := [], reconEdges := [], reconEdgeKeys := [] }

/-- `selected_clean = [t for t in (selected_tools or []) if t in TOOLS]`. -/
def selectedClean (selected : Option (List String)) : List String :=
  (selected.getD []).filter (fun t => TOOL_NAMES.contains t)

/-- The tool list the run executes: the installed tools, or the selected
ones intersected with availability. -/
def scanToolsToRun (env : ScanEnv) (selected : Option (List String)) : List String :=
  let sc := selectedClean selected
  if sc.isEmpty then env.installed else sc.filter (fun t => env.installed.contains t)

/-- The result-publication loop (lines 113-125): per tool in launch order,
a raised task is logged, otherwise its findings are normalized against the
shared dedup cache, appended to `_last_results` when any survive, and the
enrichment pass is refreshed. -/
def processToolResults (ar : ApplyRules) (toolResult : String → Except String (List RawFinding)) :
    List String → EngineState → List String × EngineState
  | [], st => ([], st)
  | t :: rest, st =>
    match toolResult t with
    | .error e =>
      let next := processToolResults ar toolResult rest st
      (("[" ++ t ++ "] task error: " ++ e) :: next.1, next.2)
    | .ok raw =>
      let nf := normalize_findings raw st.fingerprintCache
      let normalized := nf.1
      let st := { st with fingerprintCache := nf.2 }
      if normalized.isEmpty then processToolResults ar toolResult rest st
      else
        let st := { st with lastResults := st.lastResults ++ normalized }
        let st := (refresh_enrichment ar st).2
        let next := processToolResults ar toolResult rest st
        (("[scanner] Recorded " ++ toString normalized.length ++ " finding(s) from " ++ t ++ ".")
          :: next.1, next.2)

/-- The phase loop (lines 133-143): like the tool loop, plus recon-edge
extraction and recording for non-empty normalized batches. -/
def processPhases (ar : ApplyRules) :
    List (String × List RawFinding) → EngineState → List String × EngineState
  | [], st => ([], st)
  | (name, phaseFindings) :: rest, st =>
    let nf := normalize_findings phaseFindings st.fingerprintCache
    let normalized := nf.1
    let st := { st with fingerprintCache := nf.2 }
    if normalized.isEmpty then processPhases ar rest st
    else
      let st := { st with lastResults := st.lastResults ++ normalized }
      let recon := build_recon_edges normalized
      let st := if recon.isEmpty then st else record_recon_edges st recon
      let st := (refresh_enrichment ar st).2
      let next := processPhases ar rest st
      (("[phase] " ++ name ++ " produced " ++ toString normalized.length ++ " finding(s).")
        :: next.1, next.2)

/-- `ScannerEngine.scan`, linearized.  `prior` is the engine state left by
any previous run. -/
def scan (prior : EngineState) (env : ScanEnv) (selected : Option (List String)) :
    List String × EngineState :=
  let st := resetRunState prior
  let sc := selectedClean selected
  let tools_to_run := scanToolsToRun env selected
  let missing := if sc.isEmpty then [] else sc.filter (fun t => !(env.installed.contains t))
  let headerLog :=
    (if sc.isEmpty then [] else ["[scanner] Selected tools: " ++ String.intercalate ", " sc])
    ++ (if missing.isEmpty then []
        else ["[scanner] Skipping (not installed): " ++ String.intercalate ", " missing])
  if tools_to_run.isEmpty then
    (headerLog ++ ["[scanner] No supported tools available in PATH. Skipping tool phase."], st)
  else
    let toolPhaseLog :=
      ("Installed tools: " ++ String.intercalate ", " tools_to_run)
      :: (tools_to_run.map (fun t =>
            ("[scanner] Started " ++ t ++ " (batch launch)") :: env.toolLogs t
            ++ (match env.toolResult t with
                | .error e => ["[" ++ t ++ "] task error: " ++ e]
                | .ok _ => []))).flatten
    let results := processToolResults env.apply_rules env.toolResult tools_to_run st
    let phases := processPhases env.apply_rules env.phaseResults results.2
    let final := refresh_enrichment env.apply_rules phases.2
    (headerLog ++ toolPhaseLog ++ results.1 ++ env.phaseLogs ++ phases.1
      ++ ["[rules] " ++ toString final.1.1 ++ " correlated issue(s).",
          "[killchain] " ++ toString final.1.2 ++ " relationship edge(s) generated.",
          "[scanner] Scan run complete."], final.2)

/-! ## `core/tools.py`: the registry and installed-tool detection

A tool definition dict.  `binary` is the optional explicit executable
override; `fallback` is the flag marking a shim-capable tool.  The
execution-path lookup `shutil.which` and `sys.executable` are external,
passed as parameters. -/

structure ToolDef where
  label : String := ""
  cmd : List String := []
  aggressive : Bool := false
  target_type : String := "url"
  binary : Option String := none
  fallback : Bool := false
deriving DecidableEq

/-- `tdef.get("binary") or cmd[0]`: the executable probed for a tool
(Python `or` falls through on a missing or empty override). -/
def toolExe (tdef : ToolDef) : String :=
  match tdef.binary with
  | some b => if b = "" then tdef.cmd.headD "" else b
  | none => tdef.cmd.headD ""

/-- `_SHIM_LAUNCH = [sys.executable, "-m", "core.tool_shims"]`. -/
def SHIM_LAUNCH (pyExe : String) : List String := [pyExe, "-m", "core.tool_shims"]

/-- The fallback definition built for a shim-capable tool whose native
binary is absent: a deep copy with the command replaced by the shim
invocation. -/
def shimToolDef (pyExe name : String) (tdef : ToolDef) : ToolDef :=
  { tdef with cmd := SHIM_LAUNCH pyExe ++ [name, "{target}"] }

/-- `tools.get_installed_tools`, over an arbitrary registry table (the
real one is `TOOLS_TABLE` below) and an arbitrary `shutil.which`
environment `which`. -/
def get_installed_tools (which : String → Bool) (pyExe : String) :
    List (String × ToolDef) → List (String × ToolDef)
  | [] => []
  | (name, tdef) :: rest =>
    if which (toolExe tdef) then (name, tdef) :: get_installed_tools which pyExe rest
    else if tdef.fallback then
      (name, shimToolDef pyExe name tdef) :: get_installed_tools which pyExe rest
    else get_installed_tools which pyExe rest

/-- The single-entry resolution rule of `get_installed_tools`: native
binary preferred, shim fallback second, otherwise excluded. -/
def resolveTool (which : String → Bool) (pyExe : String) (entry : String × ToolDef) :
    Option (String × ToolDef) :=
  if which (toolExe entry.2) then some entry
  else if entry.2.fallback then some (entry.1, shimToolDef pyExe entry.1 entry.2)
  else none

/-- The `TOOLS` registry of `core/tools.py` (the second, shadowing
definition; the one `get_installed_tools` and the engine consult).
`wordlist` stands for the filesystem-dependent `COMMON_WORDLIST` path and
`pyExe` for `sys.executable`. -/
def TOOLS_TABLE (wordlist pyExe : String) : List (String × ToolDef) :=
  [("nmap",
    { label := "Nmap (service/port scan)"
      cmd := ["nmap", "-sV", "-T4", "-F", "--open", "--host-timeout", "60s", "-n", "{target}"]
      target_type := "host" }),
   ("wafw00f",
    { label := "wafw00f (WAF detection)", cmd := ["wafw00f", "{target}"] }),
   ("dirsearch",
    { label := "dirsearch (content discovery)"
      cmd := ["dirsearch", "-u", "{target}", "-w", wordlist, "-q"], aggressive := true }),
   ("testssl",
    { label := "testssl.sh (TLS/SSL config)", cmd := ["testssl", "{target}"]
      target_type := "host", fallback := true }),
   ("whatweb",
    { label := "whatweb (fingerprint tech stack)", cmd := ["whatweb", "{target}"] }),
   ("nuclei",
    { label := "nuclei (vulnerability templates)"
      cmd := ["nuclei", "-target", "{target}", "-severity", "low,medium,high,critical"]
      aggressive := true }),
   ("nikto",
    { label := "Nikto (web vulnerability scanner)"
      cmd := SHIM_LAUNCH pyExe ++ ["nikto", "{target}"], aggressive := true }),
   ("gobuster",
    { label := "Gobuster (directory brute force)"
      cmd := ["gobuster", "dir", "-u", "{target}", "-w", wordlist], aggressive := true }),
   ("feroxbuster",
    { label := "Feroxbuster (recursive discovery)"
      cmd := ["feroxbuster", "-u", "{target}", "-w", wordlist, "-n"], aggressive := true }),
   ("jaeles",
    { label := "Jaeles (web vuln automation)"
      cmd := ["jaeles", "scan", "-u", "{target}"], aggressive := true }),
   ("subfinder",
    { label := "subfinder (subdomain discovery)"
      cmd := ["subfinder", "-silent", "-d", "{target}"], target_type := "domain" }),
   ("assetfinder",
    { label := "assetfinder (attack surface discovery)"
      cmd := ["assetfinder", "-subs-only", "{target}"], target_type := "domain"
      fallback := true }),
   ("hakrawler",
    { label := "hakrawler (endpoint crawler)"
      cmd := ["bash", "-lc", "printf \x27%s\\n\x27 {target} | hakrawler -subs -u"]
      binary := some "hakrawler", fallback := true }),
   ("httpx",
    { label := "httpx (HTTP probing)"
      cmd := ["httpx", "-silent", "-title", "-status-code", "-tech-detect", "-u", "{target}"] }),
   ("naabu",
    { label := "naabu (fast port scan)", cmd := ["naabu", "-host", "{target}"]
      target_type := "host" }),
   ("dnsx",
    { label := "dnsx (DNS resolver)"
      cmd := ["bash", "-lc", "printf \x27%s\\n\x27 {target} | dnsx -silent -resp -a -aaaa"]
      target_type := "domain", binary := some "dnsx", fallback := true }),
   ("masscan",
    { label := "masscan (very fast port scan)"
      cmd := ["masscan", "{target}", "-p1-65535", "--max-rate", "5000"]
      aggressive := true, target_type := "ip" }),
   ("amass",
    { label := "amass (in-depth enumeration)"
      cmd := ["amass", "enum", "-d", "{target}"], target_type := "domain" }),
   ("subjack",
    { label := "subjack (subdomain takeover)"
      cmd := ["subjack", "-d", "{target}", "-ssl"], aggressive := true
      target_type := "domain", fallback := true }),
   ("sslyze",
    { label := "sslyze (TLS scanner)", cmd := ["sslyze", "{target}"]
      target_type := "host", fallback := true }),
   ("wfuzz",
    { label := "wfuzz (parameter fuzzing)"
      cmd := ["wfuzz", "-c", "-w", wordlist, "{target}/FUZZ"], aggressive := true
      fallback := true }),
   ("httprobe",
    { label := "httprobe (HTTP availability)"
      cmd := ["bash", "-lc", "printf \x27%s\\n\x27 {target} | httprobe"]
      target_type := "host", binary := some "httprobe", fallback := true }),
   ("pshtt",
    { label := "pshtt (HTTPS observatory)", cmd := ["pshtt", "{target}"]
      target_type := "domain", fallback := true }),
   ("eyewitness",
    { label := "EyeWitness (screenshot/report)"
      cmd := ["eyewitness", "--single", "{target}", "--web"], fallback := true }),
   ("hakrevdns",
    { label := "hakrevdns (reverse DNS)"
      cmd := SHIM_LAUNCH pyExe ++ ["hakrevdns", "{target}"] })]

/-! ## `src/main.py`: entry point (no CLI surface)

`main()` builds a `QApplication` (argv is handed to Qt untouched), shows
the main window and returns the GUI event loop's exit status.  No argument
is inspected by the program itself: there is no `--headless` or `--target`
handling anywhere in the repository. -/

inductive MainAction where
  /-- Construct the GUI and enter the Qt event loop. -/
  | launchGui
  /-- Exit immediately with the given code. -/
  | exitWith (code : Nat)
deriving DecidableEq

/-- `main.main`, as a function of the process argv. -/
def mainAction (_argv : List String) : MainAction :=
  MainAction.launchGui

/-! ## `core/risk.py`: severity weights and score recalculation

Severity weights are small decimal constants (`0.5` for `INFO` and for
unknown severities); sums of such halves are exact in Python floats for
any realistic issue count, so scores are modelled in `ℚ`. -/

def SEVERITY_WEIGHTS : List (String × ℚ) :=
  [("CRITICAL", 10), ("HIGH", 6), ("MEDIUM", 3), ("LOW", 1), ("INFO", 1/2)]

/-- `SEVERITY_WEIGHTS.get(severity, 0.5)`. -/
def severityWeight (severity : String) : ℚ :=
  (SEVERITY_WEIGHTS.lookup severity).getD (1/2)

/-- The asset an issue is attributed to:
`issue.get("target") or issue.get("asset") or "unknown"`. -/
def issueAsset (issue : Issue) : String :=
  pyOr issue.target (pyOr issue.asset "unknown")

/-- `RiskEngine.recalculate` over a snapshot of the issues store: the
`defaultdict(float)` of per-asset scores, as a total function that is `0`
outside the dict's keys. -/
def recalculate (issues : List Issue) : String → ℚ :=
  issues.foldl
    (fun scores issue =>
      let asset := issueAsset issue
      let severity := pyUpper (issue.severity.getD "INFO")
      let weight := severityWeight severity
      fun a => if a = asset then scores a + weight else scores a)
    (fun _ => 0)

/-! ## Spec-side comparison definitions and proof-side predicates -/

/-- The fingerprint key as the spec describes it: the deterministic string
`tool:asset:type:severity` with defaults `scanner` and `generic`, computed
from the raw item's fields the way `_normalize_findings` computes its
default. -/
def specFingerprintKey (item : RawFinding) : String :=
  item.tool.getD "scanner" ++ ":"
    ++ normalize_assetS (pyOr item.target (pyOr item.asset "unknown")) ++ ":"
    ++ item.type.getD "generic" ++ ":"
    ++ pyUpper (item.severity.getD "INFO")

/-- The invariant tying `_recon_edge_keys` to `_recon_edges`: the recorded
edges have pairwise distinct signatures and the key set holds exactly
those signatures.  It holds for the reset state of each run and is
preserved by `_record_recon_edges`. -/
def ReconInv (st : EngineState) : Prop :=
  (st.reconEdges.map edge_signature).Nodup ∧
  (∀ k, k ∈ st.reconEdgeKeys ↔ k ∈ st.reconEdges.map edge_signature)

/-- The dedup/admission invariant of a scan run: recorded findings have
pairwise distinct fingerprints, each already present in the run's cache. -/
def DedupInv (st : EngineState) : Prop :=
  (st.lastResults.map (fun f => f.fingerprint.getD "")).Nodup ∧
  (∀ f ∈ st.lastResults, f.fingerprint.getD "" ∈ st.fingerprintCache)

/-! ## Concrete fixtures used by witnesses and counterexamples -/

/-- A raw finding that already carries a fingerprint field. -/
def presetFpItem : RawFinding :=
  { tool := some "t"
    severity := some "LOW"
    target := some "x"
    fingerprint := some "custom" }

/-- A raw finding with no preset fingerprint. -/
def plainItem : RawFinding :=
  { tool := some "nmap"
    type := some "open-port"
    severity := some "low"
    target := some "https://WWW.Example.com/x"
    proof := some "80/tcp open" }

/-- A scan environment with one installed tool that succeeds with no
findings and an empty phase list. -/
def envNmapOnly : ScanEnv :=
  { installed := ["nmap"]
    toolLogs := fun _ => []
    toolResult := fun _ => Except.ok []
    phaseLogs := []
    phaseResults := []
    apply_rules := fun _ => ([], []) }

/-- A scan environment with no installed tools. -/
def envNothingInstalled : ScanEnv :=
  { installed := []
    toolLogs := fun _ => []
    toolResult := fun _ => Except.ok []
    phaseLogs := []
    phaseResults := []
    apply_rules := fun _ => ([], []) }

/-- A concrete recon edge. -/
def sampleEdge : KEdge :=
  { source := some "example.com"
    target := some "recon-phase-1:behavior"
    label := some "timing"
    severity := some "INFO"
    edge_type := some "behavioral-signal" }

/-- The `testssl` registry entry (shim-capable: `fallback` is set). -/
def testsslDef : ToolDef :=
  { label := "testssl.sh (TLS/SSL config)"
    cmd := ["testssl", "{target}"]
    target_type := "host"
    fallback := true }

/-- An issue whose `target` key is present but empty. -/
def emptyTargetIssue : Issue :=
  { target := some ""
    asset := some "a"
    severity := some "CRITICAL" }

/-! # Theorems -/

/-! ## The scheduler bound (claim C1) -/

theorem batchLaunch_running_length (p : List String) :
    ∀ r : List String, r.length ≤ MAX_CONCURRENT_TOOLS →
      ((batchLaunch p r).2).length = min MAX_CONCURRENT_TOOLS (r.length + p.length) := by
  induction p with
  | nil =>
    intro r hr
    simp only [batchLaunch, List.length_nil]
    omega
  | cons t rest ih =>
    intro r hr
    simp only [batchLaunch]
    by_cases h : r.length < MAX_CONCURRENT_TOOLS
    · rw [if_pos h, ih (r ++ [t]) (by simp; omega)]
      simp
      omega
    · rw [if_neg h]
      simp
      omega

theorem completeTool_running_le (s : SchedState) (t : String) (h : t ∈ s.running) :
    (completeTool s t).running.length ≤ s.running.length := by
  have hpos : 0 < s.running.length := List.length_pos.mpr (List.ne_nil_of_mem h)
  have hlen : (s.running.erase t).length = s.running.length - 1 :=
    List.length_erase_of_mem h
  unfold completeTool
  cases hp : s.pending with
  | nil => simp [hlen]
  | cons next rest =>
    simp only [List.length_append, List.length_cons, List.length_nil, hlen]
    omega

theorem sched_reachable_running_le (tools : List String) (s : SchedState)
    (h : SchedReachable tools s) : s.running.length ≤ MAX_CONCURRENT_TOOLS := by
  induction h with
  | refl =>
    have := batchLaunch_running_length tools [] (by simp [MAX_CONCURRENT_TOOLS])
    simp only [initSched]
    omega
  | tail hsteps hstep ih =>
    cases hstep with
    | complete t hmem => exact le_trans (completeTool_running_le _ t hmem) ih

/-- C1: during a scan run the set of concurrently running tool tasks never
exceeds `MAX_CONCURRENT_TOOLS = 2`: the batch launch starts exactly
`min 2 |pending|` tools, every state the scheduler loop can reach keeps
`|running| ≤ 2`, and a completion with pending work left refills the freed
slot with the head of the FIFO pending queue. -/
theorem scheduler_concurrency_bound (tools : List String) (s : SchedState)
    (h : SchedReachable tools s) :
    s.running.length ≤ MAX_CONCURRENT_TOOLS ∧
    (initSched tools).running.length = min MAX_CONCURRENT_TOOLS tools.length ∧
    (∀ t next rest, t ∈ s.running → s.pending = next :: rest →
      (completeTool s t).running = s.running.erase t ++ [next] ∧
      (completeTool s t).pending = rest) := by
  refine ⟨sched_reachable_running_le tools s h, ?_, ?_⟩
  · have := batchLaunch_running_length tools [] (by simp [MAX_CONCURRENT_TOOLS])
    simpa [initSched] using this
  · intro t next rest _ hp
    unfold completeTool
    rw [hp]
    exact ⟨rfl, rfl⟩

theorem scheduler_concurrency_bound_witness :
    (completeTool (initSched ["nmap", "whatweb", "wafw00f"]) "nmap").running.length
      ≤ MAX_CONCURRENT_TOOLS :=
  (scheduler_concurrency_bound ["nmap", "whatweb", "wafw00f"] _
    (Relation.ReflTransGen.single (SchedStep.complete _ "nmap" (by decide)))).1

/-! ## Dedup idempotence (claim C3) -/

theorem normalize_findings_cache_mono (items : List RawFinding) :
    ∀ cache : List String, ∀ fp ∈ cache, fp ∈ (normalize_findings items cache).2 := by
  induction items with
  | nil => intro cache fp hfp; simpa [normalize_findings] using hfp
  | cons item rest ih =>
    intro cache fp hfp
    simp only [normalize_findings]
    by_cases h : ((normalize_entry item).fingerprint).getD "" ∈ cache
    · rw [if_pos h]; exact ih cache fp hfp
    · rw [if_neg h]
      exact ih (((normalize_entry item).fingerprint).getD "" :: cache) fp (by simp [hfp])

theorem fingerprint_mem_cache_after (items : List RawFinding) :
    ∀ cache : List String, ∀ item ∈ items,
      fingerprintOf item ∈ (normalize_findings items cache).2 := by
  induction items with
  | nil => intro cache item hitem; simp at hitem
  | cons hd rest ih =>
    intro cache item hitem
    simp only [normalize_findings]
    rcases List.mem_cons.mp hitem with rfl | hmem
    · by_cases h : ((normalize_entry item).fingerprint).getD "" ∈ cache
      · rw [if_pos h]
        exact normalize_findings_cache_mono rest cache _ h
      · rw [if_neg h]
        exact normalize_findings_cache_mono rest _ _ (by simp [fingerprintOf])
    · by_cases h : ((normalize_entry hd).fingerprint).getD "" ∈ cache
      · rw [if_pos h]; exact ih cache item hmem
      · rw [if_neg h]; exact ih _ item hmem

theorem normalize_findings_all_cached (items : List RawFinding) :
    ∀ cache : List String, (∀ item ∈ items, fingerprintOf item ∈ cache) →
      normalize_findings items cache = ([], cache) := by
  induction items with
  | nil => intro cache _; rfl
  | cons hd rest ih =>
    intro cache hall
    have hhd : ((normalize_entry hd).fingerprint).getD "" ∈ cache := hall hd (by simp)
    simp only [normalize_findings, if_pos hhd]
    exact ih cache (fun item hitem => hall item (by simp [hitem]))

/-- C3: normalization-with-dedup is idempotent against a shared cache:
running the same raw batch through `_normalize_findings` a second time,
against the cache state the first run left, admits nothing. -/
theorem normalize_findings_idempotent (items : List RawFinding) (cache : List String) :
    (normalize_findings items (normalize_findings items cache).2).1 = [] := by
  rw [normalize_findings_all_cached items (normalize_findings items cache).2
    (fun item hitem => fingerprint_mem_cache_after items cache item hitem)]

/-! ## No headless CLI mode (claim C9) -/

/-- C9 counterexample: the claimed `--headless` CLI surface does not
exist — `main` does not exit with code 1 when `--target` is missing in
"headless mode"; it ignores argv entirely. -/
theorem no_headless_mode_counterexample :
    mainAction ["--headless"] ≠ MainAction.exitWith 1 := by decide

/-- C9 (amended): the program offers no headless CLI mode: `main` launches
the GUI event loop regardless of argv, and in particular never exits with
code 1 over a missing `--target`. -/
theorem main_always_launches_gui (argv : List String) :
    mainAction argv = MainAction.launchGui := rfl

/-! ## Fingerprint computation and run-scoped dedup (claim C2) -/

theorem normalize_findings_mem_out (items : List RawFinding) :
    ∀ cache : List String, ∀ f ∈ (normalize_findings items cache).1,
      ∃ item, item ∈ items ∧ f = normalize_entry item := by
  induction items with
  | nil => intro cache f hf; simp [normalize_findings] at hf
  | cons hd rest ih =>
    intro cache f hf
    simp only [normalize_findings] at hf
    by_cases h : ((normalize_entry hd).fingerprint).getD "" ∈ cache
    · rw [if_pos h] at hf
      obtain ⟨item, hitem, heq⟩ := ih cache f hf
      exact ⟨item, by simp [hitem], heq⟩
    · rw [if_neg h] at hf
      rcases List.mem_cons.mp hf with rfl | hf'
      · exact ⟨hd, by simp, rfl⟩
      · obtain ⟨item, hitem, heq⟩ := ih _ f hf'
        exact ⟨item, by simp [hitem], heq⟩

theorem normalize_entry_fingerprint_eq (item : RawFinding) :
    (normalize_entry item).fingerprint = some (item.fingerprint.getD (specFingerprintKey item)) :=
  rfl

theorem normalize_findings_out_fresh (items : List RawFinding) :
    ∀ cache : List String,
      (((normalize_findings items cache).1.map (fun f => f.fingerprint.getD "")).Nodup) ∧
      (∀ f ∈ (normalize_findings items cache).1, f.fingerprint.getD "" ∉ cache) := by
  induction items with
  | nil => intro cache; simp [normalize_findings]
  | cons hd rest ih =>
    intro cache
    simp only [normalize_findings]
    by_cases h : ((normalize_entry hd).fingerprint).getD "" ∈ cache
    · rw [if_pos h]; exact ih cache
    · rw [if_neg h]
      obtain ⟨hnd, hfresh⟩ := ih (((normalize_entry hd).fingerprint).getD "" :: cache)
      refine ⟨?_, ?_⟩
      · refine List.nodup_cons.mpr ⟨?_, hnd⟩
        intro hmem
        obtain ⟨f, hf, hfe⟩ := List.mem_map.mp hmem
        exact hfresh f hf (by simp [hfe])
      · intro f hf
        rcases List.mem_cons.mp hf with rfl | hf'
        · exact h
        · intro hc
          exact hfresh f hf' (by simp [hc])

theorem normalize_findings_out_mem_cache (items : List RawFinding) (cache : List String)
    (f : RawFinding) (hf : f ∈ (normalize_findings items cache).1) :
    f.fingerprint.getD "" ∈ (normalize_findings items cache).2 := by
  obtain ⟨item, hitem, rfl⟩ := normalize_findings_mem_out items cache f hf
  exact fingerprint_mem_cache_after items cache item hitem

theorem refresh_enrichment_preserves_run_fields (ar : ApplyRules) (st : EngineState) :
    (refresh_enrichment ar st).2.lastResults = st.lastResults ∧
    (refresh_enrichment ar st).2.fingerprintCache = st.fingerprintCache ∧
    (refresh_enrichment ar st).2.reconEdges = st.reconEdges ∧
    (refresh_enrichment ar st).2.reconEdgeKeys = st.reconEdgeKeys :=
  ⟨rfl, rfl, rfl, rfl⟩

theorem record_recon_edges_preserves_findings (edges : List KEdge) :
    ∀ st : EngineState,
      (record_recon_edges st edges).lastResults = st.lastResults ∧
      (record_recon_edges st edges).fingerprintCache = st.fingerprintCache := by
  induction edges with
  | nil => intro st; exact ⟨rfl, rfl⟩
  | cons e rest ih =>
    intro st
    simp only [record_recon_edges, List.foldl_cons]
    have := ih (record_recon_edge st e)
    simp only [record_recon_edges] at this
    refine ⟨this.1.trans ?_, this.2.trans ?_⟩ <;>
      · unfold record_recon_edge
        split <;> rfl

theorem dedupInv_cache_grow (st : EngineState) (raw : List RawFinding)
    (hInv : DedupInv st) :
    DedupInv { st with fingerprintCache := (normalize_findings raw st.fingerprintCache).2 } := by
  refine ⟨hInv.1, ?_⟩
  intro f hf
  exact normalize_findings_cache_mono raw st.fingerprintCache _ (hInv.2 f hf)

theorem dedupInv_batch (st : EngineState) (raw : List RawFinding) (hInv : DedupInv st) :
    DedupInv { st with
      fingerprintCache := (normalize_findings raw st.fingerprintCache).2
      lastResults := st.lastResults ++ (normalize_findings raw st.fingerprintCache).1 } := by
  obtain ⟨hnd, hmem⟩ := hInv
  obtain ⟨hndOut, hfresh⟩ := normalize_findings_out_fresh raw st.fingerprintCache
  constructor
  · simp only [List.map_append]
    rw [List.nodup_append]
    refine ⟨hnd, hndOut, ?_⟩
    intro fp hfpOld hfpNew
    obtain ⟨f, hf, rfl⟩ := List.mem_map.mp hfpOld
    obtain ⟨g, hg, hge⟩ := List.mem_map.mp hfpNew
    exact hfresh g hg (hge ▸ hmem f hf)
  · intro f hf
    rcases List.mem_append.mp hf with hold | hnew
    · exact normalize_findings_cache_mono raw st.fingerprintCache _ (hmem f hold)
    · exact normalize_findings_out_mem_cache raw st.fingerprintCache f hnew

theorem processToolResults_dedupInv (ar : ApplyRules)
    (toolResult : String → Except String (List RawFinding)) (tools : List String) :
    ∀ st : EngineState, DedupInv st →
      DedupInv (processToolResults ar toolResult tools st).2 := by
  induction tools with
  | nil => intro st hInv; exact hInv
  | cons t rest ih =>
    intro st hInv
    simp only [processToolResults]
    cases toolResult t with
    | error e => exact ih st hInv
    | ok raw =>
      by_cases hempty : (normalize_findings raw st.fingerprintCache).1.isEmpty
      · simp only [hempty, if_true]
        exact ih _ (dedupInv_cache_grow st raw hInv)
      · simp only [hempty, if_false]
        refine ih _ ?_
        have h1 := dedupInv_batch st raw hInv
        refine ⟨?_, ?_⟩
        · exact h1.1
        · intro f hf
          exact h1.2 f hf

theorem processPhases_dedupInv (ar : ApplyRules)
    (phases : List (String × List RawFinding)) :
    ∀ st : EngineState, DedupInv st → DedupInv (processPhases ar phases st).2 := by
  induction phases with
  | nil => intro st hInv; exact hInv
  | cons p rest ih =>
    intro st hInv
    obtain ⟨name, phaseFindings⟩ := p
    simp only [processPhases]
    by_cases hempty : (normalize_findings phaseFindings st.fingerprintCache).1.isEmpty
    · simp only [hempty, if_true]
      exact ih _ (dedupInv_cache_grow st phaseFindings hInv)
    · simp only [hempty, if_false]
      refine ih _ ?_
      have h1 := dedupInv_batch st phaseFindings hInv
      set st1 : EngineState := { st with
        fingerprintCache := (normalize_findings phaseFindings st.fingerprintCache).2
        lastResults := st.lastResults
          ++ (normalize_findings phaseFindings st.fingerprintCache).1 } with hst1
      set st2 : EngineState :=
        if (build_recon_edges (normalize_findings phaseFindings st.fingerprintCache).1).isEmpty
        then st1
        else record_recon_edges st1 (build_recon_edges (normalize_findings phaseFindings st.fingerprintCache).1)
        with hst2
      have h2 : DedupInv st2 := by
        rw [hst2]
        split
        · exact h1
        · have hp := record_recon_edges_preserves_findings
            (build_recon_edges (normalize_findings phaseFindings st.fingerprintCache).1) st1
          refine ⟨?_, ?_⟩
          · rw [hp.1]; exact h1.1
          · intro f hf
            rw [hp.1] at hf
            rw [hp.2]
            exact h1.2 f hf
      refine ⟨?_, ?_⟩
      · exact h2.1
      · intro f hf
        exact h2.2 f hf

theorem resetRunState_dedupInv (prior : EngineState) : DedupInv (resetRunState prior) := by
  refine ⟨List.nodup_nil, ?_⟩
  intro f hf
  simp [resetRunState] at hf

theorem scan_dedupInv (prior : EngineState) (env : ScanEnv) (selected : Option (List String)) :
    DedupInv (scan prior env selected).2 := by
  simp only [scan]
  split
  · exact resetRunState_dedupInv prior
  · have h0 := resetRunState_dedupInv prior
    have h1 := processToolResults_dedupInv env.apply_rules env.toolResult
      (scanToolsToRun env selected) _ h0
    have h2 := processPhases_dedupInv env.apply_rules env.phaseResults _ h1
    have h3 := refresh_enrichment_preserves_run_fields env.apply_rules
      (processPhases env.apply_rules env.phaseResults
        (processToolResults env.apply_rules env.toolResult (scanToolsToRun env selected)
          (resetRunState prior)).2).2
    refine ⟨?_, ?_⟩
    · rw [h3.1]; exact h2.1
    · intro f hf
      rw [h3.1] at hf
      rw [h3.2.1]
      exact h2.2 f hf

/-- C2 (amended): an admitted finding's fingerprint is the raw finding's
own preset `fingerprint` when it carries one, and otherwise the
deterministic key `tool:asset:type:severity` (defaults `scanner` and
`generic`); within one scan run at most one finding per fingerprint is
retained (later duplicates are silently dropped); and the dedup cache is
scan-run-scoped — `scan` resets it (with the rest of the run state) on
entry, so the run is oblivious to any previously accumulated cache. -/
theorem fingerprint_dedup (items : List RawFinding) (cache : List String) (f : RawFinding)
    (hf : f ∈ (normalize_findings items cache).1) :
    (∃ item, item ∈ items ∧ f = normalize_entry item ∧
      f.fingerprint = some (item.fingerprint.getD (specFingerprintKey item))) ∧
    (∀ (prior : EngineState) (env : ScanEnv) (selected : Option (List String)),
      (((scan prior env selected).2.lastResults.map (fun g => g.fingerprint.getD "")).Nodup) ∧
      scan prior env selected = scan (resetRunState prior) env selected) := by
  refine ⟨?_, ?_⟩
  · obtain ⟨item, hitem, rfl⟩ := normalize_findings_mem_out items cache f hf
    exact ⟨item, hitem, rfl, normalize_entry_fingerprint_eq item⟩
  · intro prior env selected
    exact ⟨(scan_dedupInv prior env selected).1, rfl⟩

theorem fingerprint_dedup_witness :
    ∃ item, item ∈ [plainItem] ∧ normalize_entry plainItem = normalize_entry item ∧
      (normalize_entry plainItem).fingerprint
        = some (item.fingerprint.getD (specFingerprintKey item)) :=
  (fingerprint_dedup [plainItem] [] (normalize_entry plainItem) (by decide)).1

/-- C2 counterexample: a raw finding already carrying a `fingerprint` key
is admitted with that preset value (`setdefault` keeps it), not with the
key `tool:asset:type:severity` the claim states. -/
theorem preset_fingerprint_counterexample :
    (normalize_findings [presetFpItem] []).1.map (fun f => f.fingerprint) = [some "custom"] ∧
    specFingerprintKey presetFpItem = "t:x:generic:LOW" ∧
    ("custom" : String) ≠ "t:x:generic:LOW" := by
  exact ⟨by decide, by decide, by decide⟩

/-! ## Killchain refresh and recon-edge accumulation (claim C7) -/

theorem record_recon_edge_mem_keys (st : EngineState) (e : KEdge) :
    edge_signature e ∈ (record_recon_edge st e).reconEdgeKeys := by
  unfold record_recon_edge
  split
  · assumption
  · simp

theorem record_recon_edge_keys_mono (st : EngineState) (e : KEdge) (k : EdgeSig)
    (hk : k ∈ st.reconEdgeKeys) : k ∈ (record_recon_edge st e).reconEdgeKeys := by
  unfold record_recon_edge
  split
  · exact hk
  · simp [hk]

theorem record_recon_edge_inv (st : EngineState) (e : KEdge) (h : ReconInv st) :
    ReconInv (record_recon_edge st e) := by
  unfold record_recon_edge
  split
  · exact h
  · next hnot =>
    refine ⟨?_, ?_⟩
    · simp only [List.map_append, List.map_cons, List.map_nil]
      rw [List.nodup_append]
      refine ⟨h.1, List.nodup_singleton _, ?_⟩
      intro k hk hk1
      have hke : k = edge_signature e := by simpa using hk1
      subst hke
      exact hnot ((h.2 _).mpr hk)
    · intro k
      constructor
      · intro hk
        rcases List.mem_cons.mp hk with rfl | hk'
        · rw [List.map_append]
          exact List.mem_append_right _ (by simp)
        · rw [List.map_append]
          exact List.mem_append_left _ ((h.2 k).mp hk')
      · intro hk
        rw [List.map_append] at hk
        rcases List.mem_append.mp hk with hk' | hk'
        · exact List.mem_cons_of_mem _ ((h.2 k).mpr hk')
        · have hke : k = edge_signature e := by simpa using hk'
          simp [hke]

theorem record_recon_edges_keys_mono (edges : List KEdge) :
    ∀ (st : EngineState) (k : EdgeSig), k ∈ st.reconEdgeKeys →
      k ∈ (record_recon_edges st edges).reconEdgeKeys := by
  induction edges with
  | nil => intro st k hk; exact hk
  | cons e rest ih =>
    intro st k hk
    simp only [record_recon_edges, List.foldl_cons]
    exact ih (record_recon_edge st e) k (record_recon_edge_keys_mono st e k hk)

theorem record_recon_edges_mem_keys (edges : List KEdge) :
    ∀ (st : EngineState), ∀ e ∈ edges,
      edge_signature e ∈ (record_recon_edges st edges).reconEdgeKeys := by
  induction edges with
  | nil => intro st e he; simp at he
  | cons hd rest ih =>
    intro st e he
    simp only [record_recon_edges, List.foldl_cons]
    rcases List.mem_cons.mp he with rfl | he'
    · exact record_recon_edges_keys_mono rest (record_recon_edge st e) _
        (record_recon_edge_mem_keys st e)
    · exact ih (record_recon_edge st hd) e he'

theorem record_recon_edges_inv (edges : List KEdge) :
    ∀ st : EngineState, ReconInv st → ReconInv (record_recon_edges st edges) := by
  induction edges with
  | nil => intro st h; exact h
  | cons e rest ih =>
    intro st h
    simp only [record_recon_edges, List.foldl_cons]
    exact ih (record_recon_edge st e) (record_recon_edge_inv st e h)

theorem record_recon_edges_skip (edges : List KEdge) :
    ∀ st : EngineState, (∀ e ∈ edges, edge_signature e ∈ st.reconEdgeKeys) →
      record_recon_edges st edges = st := by
  induction edges with
  | nil => intro st _; rfl
  | cons e rest ih =>
    intro st hall
    simp only [record_recon_edges, List.foldl_cons]
    have he : record_recon_edge st e = st := by
      unfold record_recon_edge
      rw [if_pos (hall e (by simp))]
    rw [he]
    exact ih st (fun e' he' => hall e' (by simp [he']))

theorem record_recon_edges_idem (st : EngineState) (edges : List KEdge) :
    record_recon_edges (record_recon_edges st edges) edges = record_recon_edges st edges :=
  record_recon_edges_skip edges (record_recon_edges st edges)
    (fun e he => record_recon_edges_mem_keys edges st e he)

theorem record_recon_edges_congr (edges : List KEdge) :
    ∀ st₁ st₂ : EngineState, st₁.reconEdges = st₂.reconEdges →
      st₁.reconEdgeKeys = st₂.reconEdgeKeys →
      (record_recon_edges st₁ edges).reconEdges = (record_recon_edges st₂ edges).reconEdges ∧
      (record_recon_edges st₁ edges).reconEdgeKeys = (record_recon_edges st₂ edges).reconEdgeKeys := by
  induction edges with
  | nil => intro st₁ st₂ h1 h2; exact ⟨h1, h2⟩
  | cons e rest ih =>
    intro st₁ st₂ h1 h2
    simp only [record_recon_edges, List.foldl_cons]
    refine ih (record_recon_edge st₁ e) (record_recon_edge st₂ e) ?_ ?_ <;>
      · unfold record_recon_edge
        rw [h2]
        split <;> simp [h1, h2]

theorem nodup_count_eq_one {α : Type} [BEq α] [LawfulBEq α] {l : List α} {a : α}
    (hn : l.Nodup) (ha : a ∈ l) : l.count a = 1 := by
  induction l with
  | nil => simp at ha
  | cons x xs ih =>
    rcases List.mem_cons.mp ha with rfl | h'
    · have hz : xs.count a = 0 := List.count_eq_zero.mpr (List.nodup_cons.mp hn).1
      simp [List.count_cons, hz]
    · have hax : a ≠ x := by
        intro hax
        exact (List.nodup_cons.mp hn).1 (hax ▸ h')
      have := ih (List.nodup_cons.mp hn).2 h'
      simp [List.count_cons, this, hax]

theorem record_recon_edges_fresh_count (st : EngineState) (edges : List KEdge)
    (hInv : ReconInv st) (e : KEdge) (he : e ∈ edges) :
    (((record_recon_edges st edges).reconEdges.map edge_signature).count (edge_signature e)) = 1 := by
  have hinv' := record_recon_edges_inv edges st hInv
  have hmem : edge_signature e ∈ (record_recon_edges st edges).reconEdges.map edge_signature :=
    (hinv'.2 _).mp (record_recon_edges_mem_keys edges st e he)
  exact nodup_count_eq_one hinv'.1 hmem

/-- C7: at every enrichment refresh the killchain store's visible edge
list is the enrichment pass's edges followed by the accumulated
recon-phase edges; recon edges are deduplicated by the signature tuple
`(source, target, label, edge_type, severity)` and accumulate across the
run (a refresh never touches them); recording the same edges again —
including after an interleaved refresh — is a no-op, so a recon finding
fed twice across two refreshes yields exactly one edge per signature. -/
theorem killchain_refresh_recon_accumulation (ar : ApplyRules) (st : EngineState)
    (edges : List KEdge) (hInv : ReconInv st) :
    ((refresh_enrichment ar st).2.killchain = enrichment_edges ar st ++ st.reconEdges) ∧
    ((refresh_enrichment ar st).2.reconEdges = st.reconEdges ∧
      (refresh_enrichment ar st).2.reconEdgeKeys = st.reconEdgeKeys) ∧
    (record_recon_edges (record_recon_edges st edges) edges = record_recon_edges st edges) ∧
    ((record_recon_edges (refresh_enrichment ar (record_recon_edges st edges)).2 edges).reconEdges
      = (record_recon_edges st edges).reconEdges) ∧
    ReconInv (record_recon_edges st edges) ∧
    (∀ e ∈ edges, edge_signature e ∉ st.reconEdgeKeys →
      (((record_recon_edges st edges).reconEdges.map edge_signature).count (edge_signature e)) = 1) := by
  refine ⟨rfl, ⟨rfl, rfl⟩, record_recon_edges_idem st edges, ?_, ?_, ?_⟩
  · have hc := record_recon_edges_congr edges
      (refresh_enrichment ar (record_recon_edges st edges)).2
      (record_recon_edges st edges) rfl rfl
    rw [hc.1, record_recon_edges_idem st edges]
  · exact record_recon_edges_inv edges st hInv
  · intro e he _hfresh
    exact record_recon_edges_fresh_count st edges hInv e he

theorem killchain_refresh_recon_accumulation_witness :
    (((record_recon_edges {} [sampleEdge]).reconEdges.map edge_signature).count
      (edge_signature sampleEdge)) = 1 :=
  (killchain_refresh_recon_accumulation (fun _ => ([], [])) {} [sampleEdge]
      ⟨List.nodup_nil, fun k => by simp⟩).2.2.2.2.2
    sampleEdge (by simp) (by simp)

/-! ## Termination of the scan stream (claim C6) -/

theorem getLast?_append_of_right_ne_nil {α : Type} (l₁ l₂ : List α) (h : l₂ ≠ []) :
    (l₁ ++ l₂).getLast? = l₂.getLast? := by
  cases l₂ with
  | nil => exact absurd rfl h
  | cons a t =>
    rw [List.getLast?_append]
    cases hx : (a :: t).getLast? with
    | none => simp at hx
    | some x => rfl

theorem scan_log_of_no_tools (prior : EngineState) (env : ScanEnv)
    (selected : Option (List String)) (h : scanToolsToRun env selected = []) :
    (scan prior env selected).1.getLast?
      = some "[scanner] No supported tools available in PATH. Skipping tool phase." := by
  have hempty : (scanToolsToRun env selected).isEmpty = true := List.isEmpty_iff.mpr h
  simp only [scan, hempty, if_true]
  exact List.getLast?_concat _

theorem scan_log_complete (prior : EngineState) (env : ScanEnv)
    (selected : Option (List String)) (h : scanToolsToRun env selected ≠ []) :
    (scan prior env selected).1.getLast? = some "[scanner] Scan run complete." := by
  have hempty : (scanToolsToRun env selected).isEmpty = false := by
    simpa [List.isEmpty_iff] using h
  simp only [scan, hempty, Bool.false_eq_true, if_false]
  repeat rw [getLast?_append_of_right_ne_nil _ _ (by simp)]
  rfl

/-- C6: every `scan(target)` invocation yields a finite log stream ending
in the terminal `"[scanner] Scan run complete."` line, whatever the tool
outcomes (`env` ranges over arbitrary task results, including raised
tasks); when the selected tool set is empty the stream instead terminates
immediately after the no-op notice — a valid terminal state, not an
error. -/
theorem scan_always_terminates (prior : EngineState) (env : ScanEnv)
    (selected : Option (List String)) :
    (scanToolsToRun env selected = [] →
      (scan prior env selected).1.getLast?
        = some "[scanner] No supported tools available in PATH. Skipping tool phase.") ∧
    (scanToolsToRun env selected ≠ [] →
      (scan prior env selected).1.getLast? = some "[scanner] Scan run complete.") :=
  ⟨scan_log_of_no_tools prior env selected, scan_log_complete prior env selected⟩

theorem scan_always_terminates_witness :
    (scan {} envNmapOnly none).1.getLast? = some "[scanner] Scan run complete." ∧
    (scan {} envNothingInstalled none).1.getLast?
      = some "[scanner] No supported tools available in PATH. Skipping tool phase." :=
  ⟨(scan_always_terminates {} envNmapOnly none).2 (by decide),
   (scan_always_terminates {} envNothingInstalled none).1 (by decide)⟩

/-! ## Tool-start failure recovery (claim C5) -/

theorem containsSub_append_right (x : Chars) :
    ∀ y p : Chars, containsSub y p = true → containsSub (x ++ y) p = true := by
  induction x with
  | nil => intro y p h; exact h
  | cons c rest ih =>
    intro y p h
    simp only [List.cons_append, containsSub, Bool.or_eq_true]
    exact Or.inr (ih y p h)

/-- C5: a tool whose executable cannot be spawned propagates no exception:
`_run_tool_task` returns an ordinary value whose finding list is empty,
whose log is exactly the run header plus one diagnostic line — the only
line containing `"NOT INSTALLED"` for any registry tool name — and the
surrounding run still reaches its terminal completion line (any other
start failure likewise yields an empty finding list). -/
theorem tool_start_failure_recovery (tool target : String)
    (classify : String → Except String (List RawFinding)) :
    (run_tool_task tool target SpawnOutcome.fileNotFound classify).findings = [] ∧
    (run_tool_task tool target SpawnOutcome.fileNotFound classify).logLines
      = ["--- Running " ++ tool ++ " ---", "[" ++ tool ++ "] NOT INSTALLED or not in PATH."] ∧
    containsSub ("[" ++ tool ++ "] NOT INSTALLED or not in PATH.").toList
      "NOT INSTALLED".toList = true ∧
    (tool ∈ TOOL_NAMES →
      ((run_tool_task tool target SpawnOutcome.fileNotFound classify).logLines.filter
        (fun l => containsSub l.toList "NOT INSTALLED".toList)).length = 1) ∧
    (∀ exc, (run_tool_task tool target (SpawnOutcome.startError exc) classify).findings = []) ∧
    (∀ (prior : EngineState) (env : ScanEnv) (sel : Option (List String)),
      env.toolResult tool
        = Except.ok (run_tool_task tool target SpawnOutcome.fileNotFound classify).findings →
      scanToolsToRun env sel ≠ [] →
      (scan prior env sel).1.getLast? = some "[scanner] Scan run complete.") := by
  refine ⟨rfl, rfl, ?_, ?_, fun _ => rfl, ?_⟩
  · have hsplit : ("[" ++ tool ++ "] NOT INSTALLED or not in PATH.").toList
        = "[".toList ++ (tool.toList ++ "] NOT INSTALLED or not in PATH.".toList) := by
      simp [String.toList, String.data_append]
    rw [hsplit]
    exact containsSub_append_right _ _ _
      (containsSub_append_right _ _ _ (by decide))
  · intro htool
    fin_cases htool <;> simp only [run_tool_task] <;> decide
  · intro prior env sel _ hne
    exact scan_log_complete prior env sel hne

theorem tool_start_failure_recovery_witness :
    (run_tool_task "nmap" "example.com" SpawnOutcome.fileNotFound
      (fun _ => Except.ok [])).findings = [] ∧
    ((run_tool_task "nmap" "example.com" SpawnOutcome.fileNotFound
      (fun _ => Except.ok [])).logLines.filter
        (fun l => containsSub l.toList "NOT INSTALLED".toList)).length = 1 :=
  ⟨(tool_start_failure_recovery "nmap" "example.com" (fun _ => Except.ok [])).1,
   (tool_start_failure_recovery "nmap" "example.com" (fun _ => Except.ok [])).2.2.2.1
     (by decide)⟩

/-! ## Two-tier installed-tool detection (claim C8) -/

theorem get_installed_tools_eq_filterMap (which : String → Bool) (pyExe : String) :
    ∀ table : List (String × ToolDef),
      get_installed_tools which pyExe table = table.filterMap (resolveTool which pyExe) := by
  intro table
  induction table with
  | nil => rfl
  | cons entry rest ih =>
    obtain ⟨name, tdef⟩ := entry
    simp only [get_installed_tools, List.filterMap_cons, resolveTool]
    by_cases hw : which (toolExe tdef)
    · simp [hw, ih]
    · by_cases hf : tdef.fallback <;> simp [hw, hf, ih]

theorem resolveTool_fst (which : String → Bool) (pyExe : String)
    (entry : String × ToolDef) (out : String × ToolDef)
    (h : resolveTool which pyExe entry = some out) : out.1 = entry.1 := by
  unfold resolveTool at h
  split at h
  · cases h; rfl
  · split at h
    · cases h; rfl
    · cases h

theorem keys_nodup_mem_unique {β : Type} :
    ∀ (l : List (String × β)), (l.map Prod.fst).Nodup →
      ∀ {n : String} {d₁ d₂ : β}, (n, d₁) ∈ l → (n, d₂) ∈ l → d₁ = d₂ := by
  intro l
  induction l with
  | nil => intro _ n d₁ d₂ h1; simp at h1
  | cons hd rest ih =>
    intro hnd n d₁ d₂ h1 h2
    have hcons : (hd.1 :: rest.map Prod.fst).Nodup := by simpa using hnd
    have hnotin : ∀ x : β, (hd.1, x) ∉ rest := by
      intro x hx
      exact (List.nodup_cons.mp hcons).1 (List.mem_map.mpr ⟨(hd.1, x), hx, rfl⟩)
    have hrest : (rest.map Prod.fst).Nodup := (List.nodup_cons.mp hcons).2
    rcases List.mem_cons.mp h1 with he1 | h1'
    · rcases List.mem_cons.mp h2 with he2 | h2'
      · exact (Prod.mk.inj (he1.trans he2.symm)).2
      · exfalso
        have hhd1 : hd.1 = n := by rw [← he1]
        exact hnotin d₂ (by rw [hhd1]; exact h2')
    · rcases List.mem_cons.mp h2 with he2 | h2'
      · exfalso
        have hhd1 : hd.1 = n := by rw [← he2]
        exact hnotin d₁ (by rw [hhd1]; exact h1')
      · exact ih hrest h1' h2'

/-- C8: installed-tool detection is two-tier: a tool whose primary
executable (or explicit `binary` override) resolves on the search path is
kept as-is; otherwise a `fallback`-flagged tool is kept with its command
replaced by the shim invocation; only a tool that is absent natively and
has no fallback is excluded.  Equivalently, `get_installed_tools` is the
per-entry resolution rule `resolveTool` mapped over the registry. -/
theorem two_tier_tool_detection (which : String → Bool) (pyExe : String)
    (table : List (String × ToolDef)) (name : String) (tdef : ToolDef)
    (hmem : (name, tdef) ∈ table) :
    get_installed_tools which pyExe table = table.filterMap (resolveTool which pyExe) ∧
    (which (toolExe tdef) = true → (name, tdef) ∈ get_installed_tools which pyExe table) ∧
    (which (toolExe tdef) = false → tdef.fallback = true →
      (name, shimToolDef pyExe name tdef) ∈ get_installed_tools which pyExe table) ∧
    ((table.map Prod.fst).Nodup → which (toolExe tdef) = false → tdef.fallback = false →
      name ∉ (get_installed_tools which pyExe table).map Prod.fst) := by
  refine ⟨get_installed_tools_eq_filterMap which pyExe table, ?_, ?_, ?_⟩
  · intro hw
    rw [get_installed_tools_eq_filterMap]
    exact List.mem_filterMap.mpr ⟨(name, tdef), hmem, by simp [resolveTool, hw]⟩
  · intro hw hf
    rw [get_installed_tools_eq_filterMap]
    exact List.mem_filterMap.mpr ⟨(name, tdef), hmem, by simp [resolveTool, hw, hf]⟩
  · intro hnd hw hf hcontra
    rw [get_installed_tools_eq_filterMap] at hcontra
    obtain ⟨out, hout, houtfst⟩ := List.mem_map.mp hcontra
    obtain ⟨entry, hent, hres⟩ := List.mem_filterMap.mp hout
    have hfst : entry.1 = name := by rw [← resolveTool_fst which pyExe entry out hres, houtfst]
    have hentry : (name, entry.2) ∈ table := by
      have : entry = (name, entry.2) := by
        rw [← hfst]
      exact this ▸ hent
    have hsame : entry.2 = tdef := keys_nodup_mem_unique table hnd hentry hmem
    have : resolveTool which pyExe entry = none := by
      have hpair : entry = (name, tdef) := by
        rw [← hfst, ← hsame]
      rw [hpair]
      simp [resolveTool, hw, hf]
    rw [this] at hres
    cases hres

theorem two_tier_tool_detection_witness :
    ("testssl", shimToolDef "python3" "testssl" testsslDef)
      ∈ get_installed_tools (fun e => e == "nmap") "python3"
          (TOOLS_TABLE "wordlist" "python3") :=
  (two_tier_tool_detection (fun e => e == "nmap") "python3"
      (TOOLS_TABLE "wordlist" "python3") "testssl" testsslDef (by decide)).2.2.1
    (by decide) (by decide)

/-! ## Risk score recalculation (claim C10) -/

theorem recalculate_foldl_eq (issues : List Issue) :
    ∀ (scores : String → ℚ) (a : String),
      (issues.foldl
        (fun scores issue =>
          let asset := issueAsset issue
          let severity := pyUpper (issue.severity.getD "INFO")
          let weight := severityWeight severity
          fun a => if a = asset then scores a + weight else scores a)
        scores) a
      = scores a
        + ((issues.filter (fun i => issueAsset i == a)).map
            (fun i => severityWeight (pyUpper (i.severity.getD "INFO")))).sum := by
  induction issues with
  | nil => intro scores a; simp
  | cons i rest ih =>
    intro scores a
    rw [List.foldl_cons]
    rw [ih]
    by_cases h : issueAsset i == a
    · have ha : a = issueAsset i := (beq_iff_eq.mp h).symm
      simp only [List.filter_cons, h, if_true, List.map_cons, List.sum_cons, if_pos ha]
      ring
    · have ha : ¬(a = issueAsset i) := fun hc => h (beq_iff_eq.mpr hc.symm)
      simp only [List.filter_cons, h, if_neg ha]
      simp

/-- C10 (amended): `RiskEngine.recalculate` assigns each asset the sum,
over the issues attributed to it, of the severity weights CRITICAL=10,
HIGH=6, MEDIUM=3, LOW=1, INFO=0.5, any unrecognized severity weighing 0.5;
an issue's asset is its `target` field if present and non-empty, else its
`asset` field if present and non-empty, else `"unknown"` (Python's `or`
falls through on an empty string, not only on a missing field). -/
theorem risk_scores_sum (issues : List Issue) (a : String) :
    recalculate issues a
      = ((issues.filter (fun i => issueAsset i == a)).map
          (fun i => severityWeight (pyUpper (i.severity.getD "INFO")))).sum ∧
    severityWeight "CRITICAL" = 10 ∧ severityWeight "HIGH" = 6 ∧
    severityWeight "MEDIUM" = 3 ∧ severityWeight "LOW" = 1 ∧
    severityWeight "INFO" = 1/2 ∧
    (∀ s : String, s ∉ ["CRITICAL", "HIGH", "MEDIUM", "LOW", "INFO"] →
      severityWeight s = 1/2) ∧
    (∀ i : Issue, issueAsset i = pyOr i.target (pyOr i.asset "unknown")) := by
  refine ⟨?_, rfl, rfl, rfl, rfl, rfl, ?_, fun i => rfl⟩
  · have := recalculate_foldl_eq issues (fun _ => 0) a
    simpa [recalculate] using this
  · intro s hs
    simp only [List.mem_cons, List.not_mem_nil, or_false, not_or] at hs
    obtain ⟨h1, h2, h3, h4, h5⟩ := hs
    have hb1 : (s == "CRITICAL") = false := by simp [h1]
    have hb2 : (s == "HIGH") = false := by simp [h2]
    have hb3 : (s == "MEDIUM") = false := by simp [h3]
    have hb4 : (s == "LOW") = false := by simp [h4]
    have hb5 : (s == "INFO") = false := by simp [h5]
    simp [severityWeight, SEVERITY_WEIGHTS, List.lookup, hb1, hb2, hb3, hb4, hb5]

theorem risk_scores_sum_witness :
    severityWeight "WARN" = 1/2 ∧
    recalculate [emptyTargetIssue] "a"
      = (([emptyTargetIssue].filter (fun i => issueAsset i == "a")).map
          (fun i => severityWeight (pyUpper (i.severity.getD "INFO")))).sum :=
  ⟨(risk_scores_sum [] "x").2.2.2.2.2.2.1 "WARN" (by decide),
   (risk_scores_sum [emptyTargetIssue] "a").1⟩

/-- C10 counterexample: an issue whose `target` key is present but holds
the empty string is attributed to its `asset` field, not to the empty
target — Python `or` treats `""` as missing. -/
theorem risk_empty_target_counterexample :
    emptyTargetIssue.target = some "" ∧
    recalculate [emptyTargetIssue] "a" = 10 ∧
    recalculate [emptyTargetIssue] "" = 0 := by
  have h1 : issueAsset emptyTargetIssue = "a" := by decide
  have h2 : pyUpper (emptyTargetIssue.severity.getD "INFO") = "CRITICAL" := by decide
  have h3 : ("" : String) ≠ "a" := by decide
  refine ⟨rfl, ?_, ?_⟩
  · simp only [recalculate]
    rw [recalculate_foldl_eq [emptyTargetIssue] (fun _ => 0) "a"]
    simp [h1, h2, severityWeight, SEVERITY_WEIGHTS]
  · simp only [recalculate]
    rw [recalculate_foldl_eq [emptyTargetIssue] (fun _ => 0) ""]
    simp [h1, h3]

/-! ## Host/domain target normalization (claim C4)

Character-level facts about `Char.toLower`, the parsed netloc, and the
extracted host. -/

theorem charOfNat_toNat (n : Nat) (h : n ≤ 122) : (Char.ofNat n).toNat = n := by
  have hv : n.isValidChar := Or.inl (by omega)
  simp [Char.ofNat, hv, Char.ofNatAux, Char.toNat, UInt32.toNat]

theorem toLower_cases (c : Char) :
    c.toLower = c ∨ (97 ≤ c.toLower.toNat ∧ c.toLower.toNat ≤ 122) := by
  unfold Char.toLower
  simp only []
  by_cases h : c.toNat ≥ 65 ∧ c.toNat ≤ 90
  · right
    rw [if_pos h, charOfNat_toNat (c.toNat + 32) (by omega)]
    omega
  · left
    rw [if_neg h]

theorem toLower_eq_self_of_not_upper (c : Char) (h : ¬(65 ≤ c.toNat ∧ c.toNat ≤ 90)) :
    c.toLower = c := by
  unfold Char.toLower
  simp only []
  rw [if_neg (by omega)]

theorem toLower_idem (c : Char) : c.toLower.toLower = c.toLower := by
  rcases toLower_cases c with h | h
  · rw [h]
    exact h
  · exact toLower_eq_self_of_not_upper c.toLower (by omega)

theorem toLower_ne_of_ne (c d : Char) (hd : d.toNat < 97 ∨ 122 < d.toNat) (hne : c ≠ d) :
    c.toLower ≠ d := by
  rcases toLower_cases c with h | h
  · rw [h]
    exact hne
  · intro he
    rw [he] at h
    omega

theorem startswith_subset (p : Chars) :
    ∀ s : Chars, startswith s p = true → ∀ c ∈ p, c ∈ s := by
  induction p with
  | nil => intro s _ c hc; simp at hc
  | cons d ds ih =>
    intro s hs c hc
    cases s with
    | nil => simp [startswith] at hs
    | cons x xs =>
      simp only [startswith, Bool.and_eq_true, beq_iff_eq] at hs
      rcases List.mem_cons.mp hc with rfl | hc'
      · simp [hs.1]
      · exact List.mem_cons_of_mem _ (ih xs hs.2 c hc')

theorem mem_of_containsSub (p : Chars) :
    ∀ s : Chars, containsSub s p = true → ∀ c ∈ p, c ∈ s := by
  intro s
  induction s with
  | nil =>
    intro h c hc
    simp only [containsSub, List.isEmpty_iff] at h
    simp [h] at hc
  | cons x rest ih =>
    intro h c hc
    simp only [containsSub, Bool.or_eq_true] at h
    rcases h with h | h
    · exact startswith_subset p (x :: rest) h c hc
    · exact List.mem_cons_of_mem _ (ih h c hc)

theorem splitNetloc_no_delims (url : Chars) (c : Char) (hc : c ∈ (splitNetloc url).1) :
    c ≠ '/' ∧ c ≠ '?' ∧ c ≠ '#' := by
  unfold splitNetloc at hc
  split at hc
  · have hpred := List.mem_takeWhile_imp hc
    simp only [Bool.not_eq_true', Bool.or_eq_false_iff, beq_eq_false_iff_ne] at hpred
    exact ⟨hpred.1.1, hpred.1.2, hpred.2⟩
  · simp at hc

theorem urlsplit_netloc_no_delims (url : Chars) (c : Char)
    (hc : c ∈ (urlsplit url).netloc) : c ≠ '/' ∧ c ≠ '?' ∧ c ≠ '#' := by
  have hrepr : ∃ u : Chars, (urlsplit url).netloc = (splitNetloc u).1 := ⟨_, rfl⟩
  obtain ⟨u, hu⟩ := hrepr
  rw [hu] at hc
  exact splitNetloc_no_delims u c hc

theorem mem_partitionChar_fst (s : Chars) (c : Char) {x : Char}
    (h : x ∈ (partitionChar s c).1) : x ∈ s :=
  (List.takeWhile_sublist _).subset h

theorem mem_partitionChar_snd (s : Chars) (c : Char) {x : Char}
    (h : x ∈ (partitionChar s c).2) : x ∈ s :=
  (List.dropWhile_sublist _).subset ((List.drop_sublist _ _).subset h)

theorem mem_afterLastChar (s : Chars) (c : Char) {x : Char}
    (h : x ∈ afterLastChar s c) : x ∈ s := by
  unfold afterLastChar at h
  split at h
  · rw [List.mem_reverse] at h
    exact List.mem_reverse.mp ((List.takeWhile_sublist _).subset h)
  · exact h

theorem mem_rstripDots (s : Chars) {x : Char} (h : x ∈ rstripDots s) : x ∈ s := by
  unfold rstripDots at h
  rw [List.mem_reverse] at h
  exact List.mem_reverse.mp ((List.dropWhile_sublist _).subset h)

theorem hostnameOf_char_origin (p : UrlParts) (h : Chars) (hh : hostnameOf p = some h) :
    ∀ c ∈ h, c ∈ p.netloc ∨ ∃ c₀ ∈ p.netloc, c = c₀.toLower := by
  simp only [hostnameOf] at hh
  set hostinfo := afterLastChar p.netloc '@' with hhi
  set h0 : Chars :=
    if hostinfo.contains '[' then
      (partitionChar (partitionChar hostinfo '[').2 ']').1
    else (partitionChar hostinfo ':').1
    with hh0
  have hsub : ∀ x ∈ h0, x ∈ p.netloc := by
    intro x hx
    rw [hh0] at hx
    split at hx
    · exact mem_afterLastChar p.netloc '@'
        (mem_partitionChar_snd hostinfo '[' (mem_partitionChar_fst _ ']' hx))
    · exact mem_afterLastChar p.netloc '@' (mem_partitionChar_fst hostinfo ':' hx)
  split at hh
  · cases hh
  · have heq : lowerChars (partitionChar h0 '%').1 ++ h0.drop (partitionChar h0 '%').1.length = h
      := by injection hh
    intro c hc
    rw [← heq] at hc
    rcases List.mem_append.mp hc with hpre | hpost
    · obtain ⟨c₀, hc₀, hlc⟩ := List.mem_map.mp hpre
      exact Or.inr ⟨c₀, hsub c₀ (mem_partitionChar_fst h0 '%' hc₀), hlc.symm⟩
    · exact Or.inl (hsub c ((List.drop_sublist _ _).subset hpost))

theorem extract_host_char_origin (t h : Chars)
    (hh : hostnameOf (urlsplit (ensure_url t)) = some h) :
    ∀ c ∈ extract_host t, ∃ c₀, c₀ ∈ (urlsplit (ensure_url t)).netloc ∧
      (c = c₀.toLower ∨ c = c₀.toLower.toLower) := by
  intro c hc
  have hex : extract_host t = rstripDots (lowerChars h) := by
    simp only [extract_host, hh, Option.getD_some]
  rw [hex] at hc
  obtain ⟨c₁, hc₁, hlc⟩ := List.mem_map.mp (mem_rstripDots _ hc)
  rcases hostnameOf_char_origin _ h hh c₁ hc₁ with hnl | ⟨c₀, hc₀, hce⟩
  · exact ⟨c₁, hnl, Or.inl hlc.symm⟩
  · exact ⟨c₀, hc₀, Or.inr (by rw [← hlc, hce])⟩

theorem map_eq_self_of_forall {α : Type} (f : α → α) :
    ∀ l : List α, (∀ x ∈ l, f x = x) → l.map f = l := by
  intro l
  induction l with
  | nil => intro _; rfl
  | cons x xs ih =>
    intro hall
    simp only [List.map_cons, hall x (by simp), ih (fun y hy => hall y (by simp [hy]))]

theorem extract_host_no_slash (t h : Chars)
    (hh : hostnameOf (urlsplit (ensure_url t)) = some h) : '/' ∉ extract_host t := by
  intro hmem
  obtain ⟨c₀, hc₀, hcase⟩ := extract_host_char_origin t h hh '/' hmem
  have hne : c₀ ≠ '/' := (urlsplit_netloc_no_delims _ c₀ hc₀).1
  have h47 : ('/' : Char).toNat < 97 ∨ 122 < ('/' : Char).toNat := Or.inl (by decide)
  have h1 : c₀.toLower ≠ '/' := toLower_ne_of_ne c₀ '/' h47 hne
  rcases hcase with hcase | hcase
  · exact h1 hcase.symm
  · exact toLower_ne_of_ne c₀.toLower '/' h47 h1 hcase.symm

theorem extract_host_lower (t h : Chars)
    (hh : hostnameOf (urlsplit (ensure_url t)) = some h) :
    lowerChars (extract_host t) = extract_host t := by
  apply map_eq_self_of_forall
  intro c hc
  obtain ⟨c₀, _, hcase⟩ := extract_host_char_origin t h hh c hc
  rcases hcase with rfl | rfl
  · exact toLower_idem c₀
  · rw [toLower_idem]

/-- C4 (amended): for every target string whose host component parses
(the url-ensured target has a hostname), normalization with tool
target-type `host` — identical to `domain` — yields an output with no
scheme and no path (no `'/'` occurs, hence no `"://"`) that is entirely
lower-case; a leading `"www."` is NOT stripped by this normalizer
(www-stripping happens only in the scanner engine's separate
`_normalize_asset`). -/
theorem host_target_normalization (resolve : Chars → Option Chars) (t h : Chars)
    (hh : hostnameOf (urlsplit (ensure_url t)) = some h) :
    ('/' ∉ normalize_target resolve t "host".toList) ∧
    containsSub (normalize_target resolve t "host".toList) "://".toList = false ∧
    lowerChars (normalize_target resolve t "host".toList)
      = normalize_target resolve t "host".toList ∧
    normalize_target resolve t "domain".toList = normalize_target resolve t "host".toList := by
  have hmode : normalize_target resolve t "host".toList = extract_host t := by
    unfold normalize_target
    rw [if_pos rfl]
  have hmode' : normalize_target resolve t "domain".toList = extract_host t := by
    unfold normalize_target
    rw [if_neg (by decide), if_pos rfl]
  rw [hmode, hmode']
  refine ⟨extract_host_no_slash t h hh, ?_, extract_host_lower t h hh, rfl⟩
  by_contra hcs
  have hcs' : containsSub (extract_host t) "://".toList = true := by
    cases hb : containsSub (extract_host t) "://".toList
    · exact absurd hb hcs
    · rfl
  exact extract_host_no_slash t h hh
    (mem_of_containsSub "://".toList (extract_host t) hcs' '/' (by decide))

theorem host_target_normalization_witness :
    '/' ∉ normalize_target (fun _ => none) "https://Example.com/path".toList "host".toList :=
  (host_target_normalization (fun _ => none) "https://Example.com/path".toList
    "example.com".toList (by decide)).1

/-- C4 counterexample: the tool target normalizer does not strip a leading
`"www."`: normalizing `www.Example.com` with target-type `host` yields
`www.example.com`. -/
theorem www_not_stripped_counterexample :
    normalize_target (fun _ => none) "www.Example.com".toList "host".toList
      = "www.example.com".toList ∧
    startswith (normalize_target (fun _ => none) "www.Example.com".toList "host".toList)
      "www.".toList = true := by
  exact ⟨by decide, by decide⟩

end AraUltra
